import Mathlib

/-!
Verification development for the property-resolution engine of the
ga-multi-mcp repository.  The Python sources under
src/ga_multi_mcp/property_resolver.py, src/ga_multi_mcp/ga_client.py and
src/ga_multi_mcp/config.py are shallowly embedded below: pure matching
code becomes total Lean functions over lists of characters, scores are
exact rationals, the possible ZeroDivisionError in the fuzzy stage is
modelled with Except, and the cache plus resolver snapshot become an
explicit state record with time passed as a rational argument.
-/

set_option allowUnsafeReducibility true in
attribute [semireducible] Rat.mul Rat.inv Rat.add Rat.sub Rat.ofScientific

set_option maxRecDepth 10000

/-! ## String helpers (Python lower / strip / isalnum, ASCII model) -/

/-- Model of the Python expression s.lower() restricted to ASCII. -/
def pyLower (s : String) : List Char :=
  s.data.map Char.toLower

/-- Model of the Python str.strip() on a character list: remove leading and
trailing whitespace. -/
def stripWS (l : List Char) : List Char :=
  ((l.dropWhile Char.isWhitespace).reverse.dropWhile Char.isWhitespace).reverse

/-- Model of query.lower().strip() from PropertyResolver.resolve / search. -/
def pyLowerStrip (s : String) : List Char :=
  stripWS (pyLower s)

/-- Model of the cleaned query: lower, strip, then keep alphanumerics only
(the variable query_clean in the source). -/
def pyCanon (s : String) : List Char :=
  (pyLowerStrip s).filter Char.isAlphanum

/-- Model of display_clean in the source: lower the display name and keep
alphanumerics only (no strip is applied there). -/
def pyClean (s : String) : List Char :=
  (pyLower s).filter Char.isAlphanum

/-- Boolean test that the first list is an initial segment of the second. -/
def isPrefixList : List Char → List Char → Bool
  | [], _ => true
  | _ :: _, [] => false
  | c :: cs, d :: ds => c = d && isPrefixList cs ds

/-- Model of the Python substring test needle in hay. -/
def containsSub : List Char → List Char → Bool
  | n, [] => isPrefixList n []
  | n, c :: t => isPrefixList n (c :: t) || containsSub n t

/-! ## difflib.SequenceMatcher model (no junk: all inputs here are short,
so autojunk never fires).  get_matching_blocks recursively splits on the
longest matching block; among maximal blocks the one starting earliest in
the first string and then earliest in the second wins.  ratio is
2 * totalMatched / (len a + len b), and 1 when both are empty. -/

/-- Length of the longest common initial run of two character lists. -/
def commonRunLen : List Char → List Char → Nat
  | c :: cs, d :: ds => if c = d then commonRunLen cs ds + 1 else 0
  | _, _ => 0

/-- Longest matching block of a against b as (i, j, k): maximal k, ties
resolved to the smallest i and then the smallest j, exactly the contract of
difflib find_longest_match without junk. -/
def bestBlock (a b : List Char) : Nat × Nat × Nat :=
  (List.range (a.length + 1)).foldl
    (fun best i =>
      (List.range (b.length + 1)).foldl
        (fun best j =>
          let k := commonRunLen (a.drop i) (b.drop j)
          if k > best.2.2 then (i, j, k) else best)
        best)
    (0, 0, 0)

/-- Total number of matched characters over the recursive block
decomposition, with explicit fuel for structural recursion.  Fuel
a.length + b.length is always sufficient because each recursive call
strictly shrinks the combined length. -/
def totalM : Nat → List Char → List Char → Nat
  | 0, _, _ => 0
  | fuel + 1, a, b =>
    let ijk := bestBlock a b
    let i := ijk.1
    let j := ijk.2.1
    let k := ijk.2.2
    if k = 0 then 0
    else
      totalM fuel (a.take i) (b.take j) + k +
        totalM fuel (a.drop (i + k)) (b.drop (j + k))

/-- Matched-character total of SequenceMatcher(None, a, b). -/
def matchesTotal (a b : List Char) : Nat :=
  totalM (a.length + b.length) a b

/-- Model of SequenceMatcher(None, a, b).ratio(). -/
def ratioOf (a b : List Char) : ℚ :=
  if a.length + b.length = 0 then 1
  else (2 * matchesTotal a b : ℚ) / ((a.length + b.length : ℕ) : ℚ)

/-! ## Data model (ga_client.GAProperty, property_resolver.PropertyMatch) -/

/-- Embedding of the GAProperty dataclass from ga_client.py. -/
structure GAProperty where
  id : String
  name : String
  display_name : String
  account_id : String
  website_url : Option String := none
deriving DecidableEq

/-- Embedding of the PropertyMatch dataclass from property_resolver.py,
with the confidence kept as an exact rational. -/
structure PropertyMatch where
  property : GAProperty
  confidence : ℚ
  matched_on : String
deriving DecidableEq

/-! ## PropertyResolver.resolve, stage by stage -/

/-- Stage 1 of resolve: first record whose raw id equals the raw query. -/
def exactIdStage (query : String) (props : List GAProperty) : Option PropertyMatch :=
  (props.find? (fun p => p.id == query)).map
    (fun p => ⟨p, 1, "exact_id"⟩)

/-- Stage 2 of resolve: first record whose name equals the cleaned query. -/
def exactNameStage (qClean : List Char) (props : List GAProperty) : Option PropertyMatch :=
  (props.find? (fun p => p.name.data == qClean)).map
    (fun p => ⟨p, 1, "exact_name"⟩)

/-- Stage 3 of resolve: first record whose lowered display name equals the
lowered stripped query. -/
def displayStage (qLower : List Char) (props : List GAProperty) : Option PropertyMatch :=
  (props.find? (fun p => p.display_name.data.map Char.toLower == qLower)).map
    (fun p => ⟨p, 1, "display_name"⟩)

/-- Test from stage 4 of resolve: the record owns the alias entry when its
name equals the entry key or its lowered display name equals the lowered
key. -/
def ownerMatches (owner : String) (p : GAProperty) : Bool :=
  p.name == owner || (pyLower p.display_name == pyLower owner)

/-- Test from stage 4 of resolve: the lowered stripped query appears among
the lowered aliases of one entry. -/
def aliasHit (qLower : List Char) (aliases : List String) : Bool :=
  aliases.any (fun a => pyLower a == qLower)

/-- Stage 4 of resolve: walk the alias table in order; on an alias hit,
return the first record matching the owner key, otherwise keep walking. -/
def aliasStage (qLower : List Char) (als : List (String × List String))
    (props : List GAProperty) : Option PropertyMatch :=
  match als with
  | [] => none
  | (owner, aliases) :: rest =>
    if aliasHit qLower aliases then
      match props.find? (ownerMatches owner) with
      | some p => some ⟨p, 1, "alias"⟩
      | none => aliasStage qLower rest props
    else aliasStage qLower rest props

/-- Condition under which the running fuzzy best is replaced: best_match is
None or the new score is strictly greater. -/
def betterThan (s : ℚ) (best : Option (GAProperty × ℚ × String)) : Bool :=
  match best with
  | none => true
  | some b => s > b.2.1

/-- Threshold-gated replacement of the running best used by the name and
display branches of the fuzzy loop. -/
def updateBest (s theta : ℚ) (tag : String) (p : GAProperty)
    (best : Option (GAProperty × ℚ × String)) :
    Option (GAProperty × ℚ × String) :=
  if s > theta && betterThan s best then some (p, s, tag) else best

/-- One iteration of the stage-5 fuzzy loop of resolve on a single record.
The partial branch divides by max(len(prop.name), len(display_clean))
with no lower guard, exactly as in the source, so a zero divisor is
modelled as a ZeroDivisionError value. -/
def fuzzyStep (qClean : List Char) (theta : ℚ)
    (best : Option (GAProperty × ℚ × String)) (p : GAProperty) :
    Except String (Option (GAProperty × ℚ × String)) :=
  let nameScore := ratioOf qClean p.name.data
  let b1 := updateBest nameScore theta "fuzzy_name" p best
  let displayClean := pyClean p.display_name
  let displayScore := ratioOf qClean displayClean
  let b2 := updateBest displayScore theta "fuzzy_display" p b1
  if containsSub qClean p.name.data || containsSub qClean displayClean then
    let d := max p.name.data.length displayClean.length
    if d = 0 then Except.error "ZeroDivisionError"
    else
      let pscore : ℚ := (qClean.length : ℚ) / ((d : ℕ) : ℚ)
      if pscore > 3 / 10 then
        let eff := 7 / 10 + pscore * (3 / 10)
        if betterThan eff b2 then Except.ok (some (p, eff, "partial"))
        else Except.ok b2
      else Except.ok b2
  else Except.ok b2

/-- Stage 5 of resolve: fold the fuzzy loop over the snapshot. -/
def fuzzyStage (qClean : List Char) (theta : ℚ) :
    List GAProperty → Option (GAProperty × ℚ × String) →
    Except String (Option (GAProperty × ℚ × String))
  | [], best => Except.ok best
  | p :: rest, best =>
    match fuzzyStep qClean theta best p with
    | Except.error e => Except.error e
    | Except.ok b => fuzzyStage qClean theta rest b

/-- Embedding of PropertyResolver.resolve over a loaded snapshot.  The
Except layer records the one place the matching code itself could raise
(the unguarded division in the partial branch). -/
def resolve (query : String) (props : List GAProperty)
    (als : List (String × List String)) (theta : ℚ) :
    Except String (Option PropertyMatch) :=
  if props.isEmpty then Except.ok none
  else
    let qLower := pyLowerStrip query
    let qClean := qLower.filter Char.isAlphanum
    match exactIdStage query props with
    | some m => Except.ok (some m)
    | none =>
      match exactNameStage qClean props with
      | some m => Except.ok (some m)
      | none =>
        match displayStage qLower props with
        | some m => Except.ok (some m)
        | none =>
          match aliasStage qLower als props with
          | some m => Except.ok (some m)
          | none =>
            match fuzzyStage qClean theta props none with
            | Except.error e => Except.error e
            | Except.ok none => Except.ok none
            | Except.ok (some b) => Except.ok (some ⟨b.1, b.2.1, b.2.2⟩)

/-! ## PropertyResolver.search -/

/-- Forced exact hit in search: the raw id equals the raw query or the
record name equals the cleaned query. -/
def forcedExact (query : String) (qClean : List Char) (p : GAProperty) : Bool :=
  p.id == query || p.name.data == qClean

/-- Best fuzzy score of search on one record: the maximum of name ratio and
display ratio, raised to the guarded containment score when the cleaned
query is a substring of either cleaned string.  Unlike resolve, search does
guard the divisor with max(..., 1). -/
def searchBestScore (qClean : List Char) (p : GAProperty) : ℚ :=
  let nameScore := ratioOf qClean p.name.data
  let displayClean := pyClean p.display_name
  let displayScore := ratioOf qClean displayClean
  let base := max nameScore displayScore
  if containsSub qClean p.name.data || containsSub qClean displayClean then
    max base (7 / 10 +
      ((qClean.length : ℚ) /
        ((max p.name.data.length (max displayClean.length 1) : ℕ) : ℚ)) * (3 / 10))
  else base

/-- Per-record contribution of search: forced exact hits first, otherwise a
match when the best score strictly exceeds 0.3, tagged fuzzy below score 1
and exact at score 1. -/
def searchEntry (query : String) (p : GAProperty) : Option PropertyMatch :=
  let qClean := pyCanon query
  if forcedExact query qClean p then some ⟨p, 1, "exact"⟩
  else
    let b := searchBestScore qClean p
    if b > 3 / 10 then
      some ⟨p, b, if b < 1 then "fuzzy" else "exact"⟩
    else none

/-- The unsorted match list of search, in snapshot order. -/
def searchMatches (query : String) (props : List GAProperty) : List PropertyMatch :=
  props.filterMap (searchEntry query)

/-- Descending-confidence comparison used to model the stable Python sort
with key confidence and reverse true. -/
def confGE (a b : PropertyMatch) : Prop :=
  b.confidence ≤ a.confidence

instance : DecidableRel confGE :=
  fun a b => inferInstanceAs (Decidable (b.confidence ≤ a.confidence))

instance : IsTotal PropertyMatch confGE :=
  ⟨fun a b => le_total b.confidence a.confidence⟩

instance : IsTrans PropertyMatch confGE :=
  ⟨fun _ _ _ h1 h2 => le_trans h2 h1⟩

/-- Embedding of PropertyResolver.search over a loaded snapshot: score all
records, sort stably by descending confidence, truncate. -/
def search (query : String) (props : List GAProperty) (maxResults : Nat) :
    List PropertyMatch :=
  (List.insertionSort confGE (searchMatches query props)).take maxResults

/-! ## Time-bounded cache (ga_client.CacheEntry and GAClient cache ops),
with time passed explicitly as a rational timestamp -/

/-- Embedding of the CacheEntry dataclass: a value plus an absolute expiry
timestamp; the entry is valid at a read exactly when the read time is
strictly below expires_at. -/
structure CacheEntry (α : Type) where
  data : α
  expires_at : ℚ
deriving DecidableEq

/-- A cache is an association list keyed by strings; the Python dict has
unique keys, and every operation below preserves that shape. -/
def Cache (α : Type) : Type := List (String × CacheEntry α)

instance (α : Type) [DecidableEq α] : DecidableEq (Cache α) :=
  inferInstanceAs (DecidableEq (List (String × CacheEntry α)))

/-- First entry stored under a key. -/
def lookupKey {α : Type} (k : String) : Cache α → Option (CacheEntry α)
  | [] => none
  | (k2, e) :: rest => if k2 = k then some e else lookupKey k rest

/-- Removal of the entry stored under a key (the Python del). -/
def eraseKey {α : Type} (k : String) : Cache α → Cache α
  | [] => []
  | (k2, e) :: rest => if k2 = k then rest else (k2, e) :: eraseKey k rest

/-- Overwrite-or-append of an entry, keeping the position of an existing
key as a Python dict does. -/
def setEntry {α : Type} (k : String) (e : CacheEntry α) : Cache α → Cache α
  | [] => [(k, e)]
  | (k2, e2) :: rest =>
    if k2 = k then (k, e) :: rest else (k2, e2) :: setEntry k e rest

/-- Embedding of GAClient._get_cached at read time now: a present unexpired
entry is returned; a present expired entry is deleted and absence is
returned.  The second component is the cache after the read. -/
def getCached {α : Type} (now : ℚ) (k : String) (c : Cache α) :
    Option α × Cache α :=
  match lookupKey k c with
  | some e => if now < e.expires_at then (some e.data, c) else (none, eraseKey k c)
  | none => (none, c)

/-- Embedding of GAClient._set_cached with an explicit ttl. -/
def setCached {α : Type} (now : ℚ) (k : String) (v : α) (ttl : ℚ)
    (c : Cache α) : Cache α :=
  setEntry k ⟨v, now + ttl⟩ c

/-! ## Resolver facade state (PropertyResolver._properties plus the
GAClient cache it reads through) -/

/-- Combined mutable state of one PropertyResolver and its GAClient: the
optional in-memory snapshot and the backing time-bounded cache. -/
structure ResolverState where
  properties : Option (List GAProperty)
  cache : Cache (List GAProperty)
deriving DecidableEq

/-- Embedding of GAClient.discover_properties: serve the cached list only
when the cache read returns a truthy (non-empty) list, otherwise consult
the remote directory (whose reply is the parameter fetched) and cache it
under the fixed key for property_cache_ttl seconds.  The boolean reports
whether the remote directory was consulted. -/
def discoverProperties (now : ℚ) (fetched : List GAProperty) (pttl : ℚ)
    (c : Cache (List GAProperty)) :
    List GAProperty × Cache (List GAProperty) × Bool :=
  match getCached now "properties" c with
  | (some l, c2) =>
    if l.isEmpty then (fetched, setCached now "properties" fetched pttl c2, true)
    else (l, c2, false)
  | (none, c2) => (fetched, setCached now "properties" fetched pttl c2, true)

/-- Embedding of PropertyResolver._ensure_properties_loaded: fetch through
the cache only when the in-memory snapshot is absent. -/
def ensureLoaded (now : ℚ) (fetched : List GAProperty) (pttl : ℚ)
    (s : ResolverState) : ResolverState × Bool :=
  match s.properties with
  | some _ => (s, false)
  | none =>
    let r := discoverProperties now fetched pttl s.cache
    (⟨some r.1, r.2.1⟩, r.2.2)

/-- Embedding of PropertyResolver.clear_cache: drop only the in-memory
snapshot. -/
def clearCacheR (s : ResolverState) : ResolverState :=
  ⟨none, s.cache⟩

/-- Stateful resolve call: load if needed, then match. -/
def resolveOp (query : String) (als : List (String × List String))
    (theta : ℚ) (now : ℚ) (fetched : List GAProperty) (pttl : ℚ)
    (s : ResolverState) :
    Except String (Option PropertyMatch) × ResolverState × Bool :=
  let r := ensureLoaded now fetched pttl s
  (resolve query (r.1.properties.getD []) als theta, r.1, r.2)

/-- Stateful search call: load if needed, then score. -/
def searchOp (query : String) (maxResults : Nat) (now : ℚ)
    (fetched : List GAProperty) (pttl : ℚ) (s : ResolverState) :
    List PropertyMatch × ResolverState × Bool :=
  let r := ensureLoaded now fetched pttl s
  (search query (r.1.properties.getD []) maxResults, r.1, r.2)

/-- Stateful list_all call: load if needed, then return the snapshot. -/
def listAllOp (now : ℚ) (fetched : List GAProperty) (pttl : ℚ)
    (s : ResolverState) :
    List GAProperty × ResolverState × Bool :=
  let r := ensureLoaded now fetched pttl s
  (r.1.properties.getD [], r.1, r.2)

/-! ## Configuration (config.Config) and the resolver constructor -/

/-- Embedding of the Config dataclass fields used by the resolver, with the
source defaults. -/
structure Config where
  fuzzy_threshold : ℚ := 6 / 10
  custom_aliases : List (String × List String) := []
  cache_ttl : ℚ := 300
  property_cache_ttl : ℚ := 3600
deriving DecidableEq

/-- The range test applied by Config.from_env to an explicit
GA_FUZZY_THRESHOLD value: accepted exactly when within [0, 1]. -/
def thresholdAccepted (t : ℚ) : Bool :=
  decide (0 ≤ t) && decide (t ≤ 1)

/-- Python truthiness fallback used by PropertyResolver.__init__ for the
threshold: an absent argument and the falsy value 0.0 both fall back to
the configured value. -/
def pyOrThreshold (arg : Option ℚ) (cfgVal : ℚ) : ℚ :=
  match arg with
  | none => cfgVal
  | some t => if t = 0 then cfgVal else t

/-- Python truthiness fallback used by PropertyResolver.__init__ for the
alias table: an absent argument and an empty mapping both fall back to the
configured value. -/
def pyOrAliases (arg : Option (List (String × List String)))
    (cfgVal : List (String × List String)) : List (String × List String) :=
  match arg with
  | none => cfgVal
  | some a => if a.isEmpty then cfgVal else a

/-- Embedding of PropertyResolver.__init__: the effective fuzzy threshold
and alias table after the truthiness fallbacks. -/
def resolverInit (fuzzy_threshold : Option ℚ)
    (custom_aliases : Option (List (String × List String))) (cfg : Config) :
    ℚ × List (String × List String) :=
  (pyOrThreshold fuzzy_threshold cfg.fuzzy_threshold,
    pyOrAliases custom_aliases cfg.custom_aliases)

/-! ## Spec-side definitions used for refinement comparisons -/

/-- Modelled from the spec: the containment score formula of section 4.3,
0.7 + 0.3 * len(canonical(query)) / max(len(recordCanonical),
len(displayCanonical), 1), with the divisor guarded below by 1. -/
def containmentScoreSpec (lq ln ld : Nat) : ℚ :=
  7 / 10 + (3 / 10) * (lq : ℚ) / ((max ln (max ld 1) : ℕ) : ℚ)

/-- Modelled from the spec wording of claim C4: the first alias-table entry
(in map order) with an alias hit and an owning record wins, and the first
record in snapshot order matching its owner key is returned. -/
def aliasSpecLookup (qLower : List Char) (als : List (String × List String))
    (props : List GAProperty) : Option PropertyMatch :=
  match als.find? (fun e => aliasHit qLower e.2 && props.any (ownerMatches e.1)) with
  | some e => (props.find? (ownerMatches e.1)).map (fun p => ⟨p, 1, "alias"⟩)
  | none => none

/-- Invariant of the fuzzy-loop accumulator: any candidate stored so far is
a name or display candidate whose score strictly exceeds the threshold, or
a partial candidate whose effective score strictly exceeds 0.79. -/
def fuzzyInv (theta : ℚ) : Option (GAProperty × ℚ × String) → Prop
  | none => True
  | some b =>
    (b.2.2 = "fuzzy_name" ∧ theta < b.2.1) ∨
    (b.2.2 = "fuzzy_display" ∧ theta < b.2.1) ∨
    (b.2.2 = "partial" ∧ 79 / 100 < b.2.1)

/-- Decidable equality for Except values, used to evaluate resolve results
on concrete inputs. -/
instance {ε α : Type} [DecidableEq ε] [DecidableEq α] : DecidableEq (Except ε α) :=
  fun x y =>
    match x, y with
    | Except.ok a, Except.ok b =>
      if h : a = b then isTrue (by rw [h]) else isFalse (by intro hc; cases hc; exact h rfl)
    | Except.error a, Except.error b =>
      if h : a = b then isTrue (by rw [h]) else isFalse (by intro hc; cases hc; exact h rfl)
    | Except.ok _, Except.error _ => isFalse (by intro hc; cases hc)
    | Except.error _, Except.ok _ => isFalse (by intro hc; cases hc)

/-! ## General lemmas -/

/-- Invariant preservation along a left fold. -/
theorem foldlInv {α β : Type} (P : β → Prop) (f : β → α → β)
    (l : List α) (init : β) (h0 : P init)
    (hstep : ∀ acc x, x ∈ l → P acc → P (f acc x)) : P (l.foldl f init) := by
  induction l generalizing init with
  | nil => exact h0
  | cons x xs ih =>
    exact ih (f init x) (hstep init x (List.mem_cons_self x xs) h0)
      (fun acc y hy hacc => hstep acc y (List.mem_cons_of_mem x hy) hacc)

theorem commonRunLen_le_left : ∀ a b : List Char, commonRunLen a b ≤ a.length := by
  intro a
  induction a with
  | nil => intro b; cases b <;> simp [commonRunLen]
  | cons c cs ih =>
    intro b
    cases b with
    | nil => simp [commonRunLen]
    | cons d ds =>
      simp only [commonRunLen, List.length_cons]
      split
      · exact Nat.succ_le_succ (ih ds)
      · exact Nat.zero_le _

theorem commonRunLen_le_right : ∀ a b : List Char, commonRunLen a b ≤ b.length := by
  intro a
  induction a with
  | nil => intro b; cases b <;> simp [commonRunLen]
  | cons c cs ih =>
    intro b
    cases b with
    | nil => simp [commonRunLen]
    | cons d ds =>
      simp only [commonRunLen, List.length_cons]
      split
      · exact Nat.succ_le_succ (ih ds)
      · exact Nat.zero_le _

/-- The block returned by bestBlock fits inside both lists. -/
theorem bestBlock_le (a b : List Char) :
    (bestBlock a b).1 + (bestBlock a b).2.2 ≤ a.length ∧
      (bestBlock a b).2.1 + (bestBlock a b).2.2 ≤ b.length := by
  unfold bestBlock
  apply foldlInv
    (fun best : Nat × Nat × Nat =>
      best.1 + best.2.2 ≤ a.length ∧ best.2.1 + best.2.2 ≤ b.length)
  · exact ⟨Nat.zero_le _, Nat.zero_le _⟩
  · intro acc i hi hacc
    have hiLe : i ≤ a.length := Nat.lt_succ_iff.mp (List.mem_range.mp hi)
    apply foldlInv
      (fun best : Nat × Nat × Nat =>
        best.1 + best.2.2 ≤ a.length ∧ best.2.1 + best.2.2 ≤ b.length)
    · exact hacc
    · intro acc2 j hj hacc2
      have hjLe : j ≤ b.length := Nat.lt_succ_iff.mp (List.mem_range.mp hj)
      dsimp only
      split
      · show i + commonRunLen (a.drop i) (b.drop j) ≤ a.length ∧
          j + commonRunLen (a.drop i) (b.drop j) ≤ b.length
        have h1 := commonRunLen_le_left (a.drop i) (b.drop j)
        have h2 := commonRunLen_le_right (a.drop i) (b.drop j)
        rw [List.length_drop] at h1
        rw [List.length_drop] at h2
        constructor <;> omega
      · exact hacc2

/-- The matched total is bounded by both lengths. -/
theorem totalM_le : ∀ (fuel : Nat) (a b : List Char),
    totalM fuel a b ≤ a.length ∧ totalM fuel a b ≤ b.length := by
  intro fuel
  induction fuel with
  | zero => intro a b; simp [totalM]
  | succ n ih =>
    intro a b
    have hbb := bestBlock_le a b
    simp only [totalM]
    split
    · simp
    · have hL := ih (a.take (bestBlock a b).1) (b.take (bestBlock a b).2.1)
      have hR := ih (a.drop ((bestBlock a b).1 + (bestBlock a b).2.2))
        (b.drop ((bestBlock a b).2.1 + (bestBlock a b).2.2))
      simp only [List.length_take, List.length_drop] at hL hR
      constructor <;> omega

theorem ratioOf_le_one (a b : List Char) : ratioOf a b ≤ 1 := by
  unfold ratioOf
  split
  · exact le_refl 1
  · rename_i hne
    have hM := totalM_le (a.length + b.length) a b
    have h2 : 2 * matchesTotal a b ≤ a.length + b.length := by
      unfold matchesTotal; omega
    have hpos : (0 : ℚ) < ((a.length + b.length : ℕ) : ℚ) := by
      have : 0 < a.length + b.length := Nat.pos_of_ne_zero hne
      exact_mod_cast this
    rw [div_le_one hpos]
    exact_mod_cast h2

theorem ratioOf_nonneg (a b : List Char) : 0 ≤ ratioOf a b := by
  unfold ratioOf
  split
  · norm_num
  · apply div_nonneg
    · positivity
    · positivity

theorem isPrefixList_length_le :
    ∀ {n h : List Char}, isPrefixList n h = true → n.length ≤ h.length := by
  intro n
  induction n with
  | nil => intro h _; simp
  | cons c cs ih =>
    intro h hp
    cases h with
    | nil => simp [isPrefixList] at hp
    | cons d ds =>
      simp only [isPrefixList, Bool.and_eq_true] at hp
      simpa using Nat.succ_le_succ (ih hp.2)

theorem containsSub_length_le :
    ∀ {n h : List Char}, containsSub n h = true → n.length ≤ h.length := by
  intro n h
  induction h with
  | nil =>
    intro hc
    simp only [containsSub] at hc
    exact isPrefixList_length_le hc
  | cons c t ih =>
    intro hc
    simp only [containsSub, Bool.or_eq_true] at hc
    rcases hc with hc | hc
    · exact isPrefixList_length_le hc
    · exact le_trans (ih hc) (by simp)

theorem isPrefixList_nil_right {n : List Char} :
    isPrefixList n [] = true ↔ n = [] := by
  cases n <;> simp [isPrefixList]

theorem containsSub_nil_iff {n : List Char} :
    containsSub n [] = true ↔ n = [] := by
  simp only [containsSub]
  exact isPrefixList_nil_right

/-! ## Fuzzy stage lemmas -/

theorem updateBest_inv {s theta : ℚ} {tag : String} {p : GAProperty}
    {best : Option (GAProperty × ℚ × String)}
    (htag : tag = "fuzzy_name" ∨ tag = "fuzzy_display")
    (hinv : fuzzyInv theta best) :
    fuzzyInv theta (updateBest s theta tag p best) := by
  unfold updateBest
  split
  · rename_i hc
    rw [Bool.and_eq_true] at hc
    have hs : theta < s := of_decide_eq_true hc.1
    rcases htag with h | h
    · exact Or.inl ⟨h, hs⟩
    · exact Or.inr (Or.inl ⟨h, hs⟩)
  · exact hinv

theorem fuzzyStep_inv {qClean : List Char} {theta : ℚ}
    {best b : Option (GAProperty × ℚ × String)} {p : GAProperty}
    (hinv : fuzzyInv theta best)
    (h : fuzzyStep qClean theta best p = Except.ok b) : fuzzyInv theta b := by
  have hb2 : fuzzyInv theta
      (updateBest (ratioOf qClean (pyClean p.display_name)) theta "fuzzy_display" p
        (updateBest (ratioOf qClean p.name.data) theta "fuzzy_name" p best)) :=
    updateBest_inv (Or.inr rfl) (updateBest_inv (Or.inl rfl) hinv)
  simp only [fuzzyStep] at h
  split at h
  · split at h
    · cases h
    · split at h
      · rename_i hps
        split at h
        · have hb := Except.ok.inj h
          rw [← hb]
          have heff : (79 : ℚ) / 100 <
              7 / 10 + (qClean.length : ℚ) /
                ((max p.name.data.length (pyClean p.display_name).length : ℕ) : ℚ) * (3 / 10) := by
            have h9 : (3 : ℚ) / 10 * (3 / 10) <
                (qClean.length : ℚ) /
                  ((max p.name.data.length (pyClean p.display_name).length : ℕ) : ℚ) * (3 / 10) := by
              apply mul_lt_mul_of_pos_right hps
              norm_num
            linarith
          exact Or.inr (Or.inr ⟨rfl, heff⟩)
        · exact Except.ok.inj h ▸ hb2
      · exact Except.ok.inj h ▸ hb2
  · exact Except.ok.inj h ▸ hb2

theorem fuzzyStage_inv {qClean : List Char} {theta : ℚ} :
    ∀ {props : List GAProperty} {best b : Option (GAProperty × ℚ × String)},
    fuzzyInv theta best →
    fuzzyStage qClean theta props best = Except.ok b → fuzzyInv theta b := by
  intro props
  induction props with
  | nil =>
    intro best b hinv h
    simp only [fuzzyStage] at h
    exact Except.ok.inj h ▸ hinv
  | cons p rest ih =>
    intro best b hinv h
    simp only [fuzzyStage] at h
    cases hstep : fuzzyStep qClean theta best p with
    | error e => rw [hstep] at h; cases h
    | ok bmid =>
      rw [hstep] at h
      exact ih (fuzzyStep_inv hinv hstep) h

theorem fuzzyStep_ok {qClean : List Char} {theta : ℚ}
    {best : Option (GAProperty × ℚ × String)} {p : GAProperty}
    (hne : ¬ p.name.data = qClean) :
    ∃ b, fuzzyStep qClean theta best p = Except.ok b := by
  simp only [fuzzyStep]
  split
  · rename_i hcont
    split
    · rename_i hd
      exfalso
      have hn0 : p.name.data = [] := by
        rw [← List.length_eq_zero]
        omega
      have hdc0 : pyClean p.display_name = [] := by
        rw [← List.length_eq_zero]
        omega
      rw [Bool.or_eq_true, hn0, hdc0] at hcont
      have hq : qClean = [] := by
        rcases hcont with hc | hc
        · exact containsSub_nil_iff.mp hc
        · exact containsSub_nil_iff.mp hc
      exact hne (hn0.trans hq.symm)
    · split
      · split
        · exact ⟨_, rfl⟩
        · exact ⟨_, rfl⟩
      · exact ⟨_, rfl⟩
  · exact ⟨_, rfl⟩

theorem fuzzyStage_ok {qClean : List Char} {theta : ℚ} :
    ∀ {props : List GAProperty} {best : Option (GAProperty × ℚ × String)},
    (∀ p ∈ props, ¬ p.name.data = qClean) →
    ∃ b, fuzzyStage qClean theta props best = Except.ok b := by
  intro props
  induction props with
  | nil => intro best _; exact ⟨best, rfl⟩
  | cons p rest ih =>
    intro best hnone
    obtain ⟨bmid, hstep⟩ :=
      @fuzzyStep_ok qClean theta best p
        (hnone p (List.mem_cons_self p rest))
    have hrec := @ih bmid
      (fun q hq => hnone q (List.mem_cons_of_mem p hq))
    simpa [fuzzyStage, hstep] using hrec

/-! ## Early stage lemmas -/

theorem exactIdStage_some {query : String} {props : List GAProperty}
    {m : PropertyMatch} (h : exactIdStage query props = some m) :
    m.confidence = 1 ∧ m.matched_on = "exact_id" := by
  unfold exactIdStage at h
  rcases Option.map_eq_some'.mp h with ⟨p, _, hm⟩
  cases hm
  exact ⟨rfl, rfl⟩

theorem exactNameStage_some {qClean : List Char} {props : List GAProperty}
    {m : PropertyMatch} (h : exactNameStage qClean props = some m) :
    m.confidence = 1 ∧ m.matched_on = "exact_name" := by
  unfold exactNameStage at h
  rcases Option.map_eq_some'.mp h with ⟨p, _, hm⟩
  cases hm
  exact ⟨rfl, rfl⟩

theorem displayStage_some {qLower : List Char} {props : List GAProperty}
    {m : PropertyMatch} (h : displayStage qLower props = some m) :
    m.confidence = 1 ∧ m.matched_on = "display_name" := by
  unfold displayStage at h
  rcases Option.map_eq_some'.mp h with ⟨p, _, hm⟩
  cases hm
  exact ⟨rfl, rfl⟩

theorem aliasStage_some {qLower : List Char} {props : List GAProperty} :
    ∀ {als : List (String × List String)} {m : PropertyMatch},
    aliasStage qLower als props = some m →
    m.confidence = 1 ∧ m.matched_on = "alias" := by
  intro als
  induction als with
  | nil => intro m h; simp [aliasStage] at h
  | cons e rest ih =>
    intro m h
    obtain ⟨owner, aliases⟩ := e
    rw [aliasStage] at h
    split at h
    · cases hfind : props.find? (ownerMatches owner) with
      | some p =>
        rw [hfind] at h
        cases h
        exact ⟨rfl, rfl⟩
      | none =>
        rw [hfind] at h
        exact ih h
    · exact ih h

/-- The matching code never raises: every call of resolve produces a value
(the Except layer never carries the ZeroDivisionError). -/
theorem resolve_isOk (query : String) (props : List GAProperty)
    (als : List (String × List String)) (theta : ℚ) :
    ∃ r, resolve query props als theta = Except.ok r := by
  by_cases hE : props.isEmpty = true
  · exact ⟨none, by simp [resolve, hE]⟩
  · cases h1 : exactIdStage query props with
    | some m => exact ⟨some m, by simp [resolve, hE, h1]⟩
    | none =>
      cases h2 : exactNameStage ((pyLowerStrip query).filter Char.isAlphanum) props with
      | some m => exact ⟨some m, by simp [resolve, hE, h1, h2]⟩
      | none =>
        cases h3 : displayStage (pyLowerStrip query) props with
        | some m => exact ⟨some m, by simp [resolve, hE, h1, h2, h3]⟩
        | none =>
          cases h4 : aliasStage (pyLowerStrip query) als props with
          | some m => exact ⟨some m, by simp [resolve, hE, h1, h2, h3, h4]⟩
          | none =>
            have hnone : ∀ p ∈ props,
                ¬ p.name.data = (pyLowerStrip query).filter Char.isAlphanum := by
              intro p hp hEq
              unfold exactNameStage at h2
              have hfind := Option.map_eq_none'.mp h2
              have := List.find?_eq_none.mp hfind p hp
              simp only [beq_iff_eq] at this
              exact this hEq
            obtain ⟨b, hb⟩ :=
              @fuzzyStage_ok ((pyLowerStrip query).filter Char.isAlphanum)
                theta props none hnone
            cases b with
            | none => exact ⟨none, by simp [resolve, hE, h1, h2, h3, h4, hb]⟩
            | some bb =>
              exact ⟨some ⟨bb.1, bb.2.1, bb.2.2⟩,
                by simp [resolve, hE, h1, h2, h3, h4, hb]⟩

/-! ## Claim theorems -/

/-- C5 (confirmed): resolve never signals absence of a match by raising an
exception: over the empty loaded snapshot it returns the ok-none value, and
for every query, snapshot, alias table and threshold the matching
computation itself yields an ok value, never the modelled exception. -/
theorem resolve_no_exception (query : String) (props : List GAProperty)
    (als : List (String × List String)) (theta : ℚ) :
    resolve query [] als theta = Except.ok none ∧
    ∃ r, resolve query props als theta = Except.ok r :=
  ⟨by simp [resolve], resolve_isOk query props als theta⟩

/-- C2 (confirmed): for any record reachable by the fuzzy stage of resolve
(that is, any record whose name is not equal to the cleaned query, which
stage 2 guarantees there) with the containment condition true, the divisor
of the partial score is at least 1 and the score computed by the code
equals the containment formula of the spec with its guarded divisor;
consequently resolve never divides by zero. -/
theorem resolve_containment_score_safe (query : String)
    (props : List GAProperty) (als : List (String × List String))
    (theta : ℚ) (p : GAProperty) (qClean : List Char)
    (hname : ¬ p.name.data = qClean)
    (hcont : (containsSub qClean p.name.data ||
      containsSub qClean (pyClean p.display_name)) = true) :
    1 ≤ max p.name.data.length (pyClean p.display_name).length ∧
    7 / 10 + ((qClean.length : ℚ) /
        ((max p.name.data.length (pyClean p.display_name).length : ℕ) : ℚ)) * (3 / 10)
      = containmentScoreSpec qClean.length p.name.data.length
          (pyClean p.display_name).length ∧
    ∃ r, resolve query props als theta = Except.ok r := by
  have h1 : 1 ≤ max p.name.data.length (pyClean p.display_name).length := by
    by_contra hlt
    have hn0 : p.name.data = [] := by
      rw [← List.length_eq_zero]
      omega
    have hd0 : pyClean p.display_name = [] := by
      rw [← List.length_eq_zero]
      omega
    rw [Bool.or_eq_true, hn0, hd0] at hcont
    have hq : qClean = [] := by
      rcases hcont with hc | hc <;> exact containsSub_nil_iff.mp hc
    exact hname (hn0.trans hq.symm)
  refine ⟨h1, ?_, resolve_isOk query props als theta⟩
  unfold containmentScoreSpec
  have hmaxEq : max p.name.data.length (max (pyClean p.display_name).length 1)
      = max p.name.data.length (pyClean p.display_name).length := by omega
  rw [hmaxEq]
  ring

/-- Witness for C2 at a concrete record and query reaching the containment
branch. -/
theorem resolve_containment_score_safe_witness :
    ∃ r, resolve "abcdefgh"
      [⟨"123", "abcdefghij", "abcdefghij", "acc", none⟩] [] (19 / 20)
        = Except.ok r :=
  (resolve_containment_score_safe "abcdefgh"
    [⟨"123", "abcdefghij", "abcdefghij", "acc", none⟩] [] (19 / 20)
    ⟨"123", "abcdefghij", "abcdefghij", "acc", none⟩ ("abcdefgh".data)
    (by decide) (by decide)).2.2

/-- C1 (refuted as stated): with theta = 19/20 inside [0, 1], every
effective score of the single record on the query abcdefgh is at most
theta (name ratio 8/9, display ratio 8/9, containment score 47/50), yet
resolve returns the record through the containment branch instead of
reporting absence. -/
theorem resolve_fuzzy_threshold_counterexample :
    resolve "abcdefgh" [⟨"123", "abcdefghij", "abcdefghij", "acc", none⟩]
        [] (19 / 20)
      = Except.ok (some ⟨⟨"123", "abcdefghij", "abcdefghij", "acc", none⟩,
          47 / 50, "partial"⟩) ∧
    ratioOf (pyCanon "abcdefgh") ("abcdefghij".data) = 8 / 9 ∧
    ratioOf (pyCanon "abcdefgh") (pyClean "abcdefghij") = 8 / 9 ∧
    (8 : ℚ) / 9 ≤ 19 / 20 ∧ (47 : ℚ) / 50 ≤ 19 / 20 ∧
    (0 : ℚ) ≤ 19 / 20 ∧ (19 : ℚ) / 20 ≤ 1 := by
  decide

/-- C1 (amended): every match returned by resolve either comes from an
exact stage at confidence 1, or is a name or display fuzzy candidate whose
score strictly exceeds theta, or is a containment (partial) candidate,
which the code accepts whenever its effective score exceeds 0.79,
regardless of theta. -/
theorem resolve_fuzzy_threshold_amended (query : String)
    (props : List GAProperty) (als : List (String × List String))
    (theta : ℚ) (m : PropertyMatch)
    (h : resolve query props als theta = Except.ok (some m)) :
    m.confidence = 1 ∨ theta < m.confidence ∨
      (m.matched_on = "partial" ∧ 79 / 100 < m.confidence) := by
  by_cases hE : props.isEmpty = true
  · simp [resolve, hE] at h
  · cases h1 : exactIdStage query props with
    | some m1 =>
      have hres : resolve query props als theta = Except.ok (some m1) := by
        simp [resolve, hE, h1]
      have hm : m1 = m := Option.some.inj (Except.ok.inj (hres.symm.trans h))
      subst hm
      exact Or.inl (exactIdStage_some h1).1
    | none =>
      cases h2 : exactNameStage ((pyLowerStrip query).filter Char.isAlphanum) props with
      | some m2 =>
        have hres : resolve query props als theta = Except.ok (some m2) := by
          simp [resolve, hE, h1, h2]
        have hm : m2 = m := Option.some.inj (Except.ok.inj (hres.symm.trans h))
        subst hm
        exact Or.inl (exactNameStage_some h2).1
      | none =>
        cases h3 : displayStage (pyLowerStrip query) props with
        | some m3 =>
          have hres : resolve query props als theta = Except.ok (some m3) := by
            simp [resolve, hE, h1, h2, h3]
          have hm : m3 = m := Option.some.inj (Except.ok.inj (hres.symm.trans h))
          subst hm
          exact Or.inl (displayStage_some h3).1
        | none =>
          cases h4 : aliasStage (pyLowerStrip query) als props with
          | some m4 =>
            have hres : resolve query props als theta = Except.ok (some m4) := by
              simp [resolve, hE, h1, h2, h3, h4]
            have hm : m4 = m := Option.some.inj (Except.ok.inj (hres.symm.trans h))
            subst hm
            exact Or.inl (aliasStage_some h4).1
          | none =>
            cases hF : fuzzyStage ((pyLowerStrip query).filter Char.isAlphanum)
                theta props none with
            | error e =>
              have hres : resolve query props als theta = Except.error e := by
                simp [resolve, hE, h1, h2, h3, h4, hF]
              rw [hres] at h
              cases h
            | ok b =>
              cases b with
              | none =>
                have hres : resolve query props als theta = Except.ok none := by
                  simp [resolve, hE, h1, h2, h3, h4, hF]
                rw [hres] at h
                simp at h
              | some bb =>
                have hres : resolve query props als theta
                    = Except.ok (some ⟨bb.1, bb.2.1, bb.2.2⟩) := by
                  simp [resolve, hE, h1, h2, h3, h4, hF]
                have hm : (⟨bb.1, bb.2.1, bb.2.2⟩ : PropertyMatch) = m :=
                  Option.some.inj (Except.ok.inj (hres.symm.trans h))
                subst hm
                have hinv0 : fuzzyInv theta none := trivial
                have hinv : fuzzyInv theta (some bb) :=
                  fuzzyStage_inv hinv0 hF
                rcases hinv with ⟨_, hs⟩ | ⟨_, hs⟩ | ⟨htag, hs⟩
                · exact Or.inr (Or.inl hs)
                · exact Or.inr (Or.inl hs)
                · exact Or.inr (Or.inr ⟨htag, hs⟩)

/-- Witness for the amended C1 at the counterexample input. -/
theorem resolve_fuzzy_threshold_amended_witness :
    (⟨⟨"123", "abcdefghij", "abcdefghij", "acc", none⟩,
        47 / 50, "partial"⟩ : PropertyMatch).confidence = 1 ∨
    (19 : ℚ) / 20 < (⟨⟨"123", "abcdefghij", "abcdefghij", "acc", none⟩,
        47 / 50, "partial"⟩ : PropertyMatch).confidence ∨
    ((⟨⟨"123", "abcdefghij", "abcdefghij", "acc", none⟩,
        47 / 50, "partial"⟩ : PropertyMatch).matched_on = "partial" ∧
      (79 : ℚ) / 100 < (⟨⟨"123", "abcdefghij", "abcdefghij", "acc", none⟩,
        47 / 50, "partial"⟩ : PropertyMatch).confidence) :=
  resolve_fuzzy_threshold_amended "abcdefgh"
    [⟨"123", "abcdefghij", "abcdefghij", "acc", none⟩] [] (19 / 20)
    ⟨⟨"123", "abcdefghij", "abcdefghij", "acc", none⟩, 47 / 50, "partial"⟩
    (by decide)

/-! ## Alias stage reformulation -/

theorem aliasSpecLookup_cons {qLower : List Char} {owner : String}
    {aliases : List String} {rest : List (String × List String)}
    {props : List GAProperty} :
    aliasSpecLookup qLower ((owner, aliases) :: rest) props =
      if (aliasHit qLower aliases && props.any (ownerMatches owner)) = true then
        (props.find? (ownerMatches owner)).map
          (fun p => (⟨p, 1, "alias"⟩ : PropertyMatch))
      else aliasSpecLookup qLower rest props := by
  unfold aliasSpecLookup
  rw [List.find?_cons]
  by_cases h : (aliasHit qLower aliases && props.any (ownerMatches owner)) = true
  · rw [if_pos h]
    simp only [h]
  · rw [if_neg h]
    have h2 : (aliasHit qLower aliases && props.any (ownerMatches owner)) = false := by
      simpa using h
    simp only [h2]

/-- The recursive alias walk of the source is the first-satisfying-entry
lookup described by the spec. -/
theorem aliasStage_eq_spec (qLower : List Char) (props : List GAProperty) :
    ∀ als, aliasStage qLower als props = aliasSpecLookup qLower als props := by
  intro als
  induction als with
  | nil => rfl
  | cons e rest ih =>
    obtain ⟨owner, aliases⟩ := e
    rw [aliasStage, aliasSpecLookup_cons]
    by_cases hhit : aliasHit qLower aliases = true
    · by_cases hany : props.any (ownerMatches owner) = true
      · rw [if_pos hhit, if_pos (by simp [hhit, hany])]
        cases hfind : props.find? (ownerMatches owner) with
        | some p => simp [hfind]
        | none =>
          exfalso
          rcases List.any_eq_true.mp hany with ⟨p, hp, hpm⟩
          have := List.find?_eq_none.mp hfind p hp
          exact this hpm
      · rw [if_pos hhit, if_neg (by simp [hany])]
        cases hfind : props.find? (ownerMatches owner) with
        | some p =>
          exfalso
          exact hany (List.any_eq_true.mpr
            ⟨p, List.mem_of_find?_eq_some hfind, List.find?_some hfind⟩)
        | none => exact ih
    · rw [if_neg hhit, if_neg (by simp [hhit])]
      exact ih

/-- C4 (refuted as stated): the query Primary Site and the alias
primary-site have equal canonical forms and a record owns the entry key
mysite, yet resolve does not return an alias match: the source compares
the lowered stripped query to the lowered alias, under which the hyphen
differs from the space, and the fuzzy stage answers instead. -/
theorem resolve_alias_canonical_counterexample :
    pyCanon "Primary Site" = pyCanon "primary-site" ∧
    ([(⟨"1", "mysite", "My Site", "acc", none⟩ : GAProperty)].any
      (ownerMatches "mysite")) = true ∧
    resolve "Primary Site" [⟨"1", "mysite", "My Site", "acc", none⟩]
        [("mysite", ["primary-site"])] (6 / 10)
      = Except.ok (some ⟨⟨"1", "mysite", "My Site", "acc", none⟩,
          12 / 17, "fuzzy_name"⟩) ∧
    ((12 : ℚ) / 17 = 1 → False) ∧ (("fuzzy_name" : String) = "alias" → False) := by
  decide

/-- C4 (amended): when stages 1 to 3 miss, resolve returns a
confidence-1 alias-stage match exactly when the first alias-table entry in
map order whose lowered aliases contain the lowered stripped query (not
its canonical form) is owned by some record, and the match carries the
first owning record in snapshot order. -/
theorem resolve_alias_amended (query : String) (props : List GAProperty)
    (als : List (String × List String)) (theta : ℚ) (m : PropertyMatch)
    (h1 : exactIdStage query props = none)
    (h2 : exactNameStage ((pyLowerStrip query).filter Char.isAlphanum) props = none)
    (h3 : displayStage (pyLowerStrip query) props = none) :
    (resolve query props als theta = Except.ok (some m) ∧ m.matched_on = "alias")
      ↔ aliasSpecLookup (pyLowerStrip query) als props = some m := by
  constructor
  · rintro ⟨hres, htag⟩
    by_cases hE : props.isEmpty = true
    · simp [resolve, hE] at hres
    · cases h4 : aliasStage (pyLowerStrip query) als props with
      | some m4 =>
        have hres4 : resolve query props als theta = Except.ok (some m4) := by
          simp [resolve, hE, h1, h2, h3, h4]
        have hm : m4 = m := Option.some.inj (Except.ok.inj (hres4.symm.trans hres))
        rw [← aliasStage_eq_spec, h4, hm]
      | none =>
        exfalso
        cases hF : fuzzyStage ((pyLowerStrip query).filter Char.isAlphanum)
            theta props none with
        | error e =>
          have hresF : resolve query props als theta = Except.error e := by
            simp [resolve, hE, h1, h2, h3, h4, hF]
          rw [hresF] at hres
          cases hres
        | ok b =>
          cases b with
          | none =>
            have hresF : resolve query props als theta = Except.ok none := by
              simp [resolve, hE, h1, h2, h3, h4, hF]
            rw [hresF] at hres
            simp at hres
          | some bb =>
            have hresF : resolve query props als theta
                = Except.ok (some ⟨bb.1, bb.2.1, bb.2.2⟩) := by
              simp [resolve, hE, h1, h2, h3, h4, hF]
            have hm : (⟨bb.1, bb.2.1, bb.2.2⟩ : PropertyMatch) = m :=
              Option.some.inj (Except.ok.inj (hresF.symm.trans hres))
            have htag2 : bb.2.2 = "alias" := by rw [← hm] at htag; exact htag
            have hinv0 : fuzzyInv theta none := trivial
            have hinv := fuzzyStage_inv hinv0 hF
            rcases hinv with ⟨ht, _⟩ | ⟨ht, _⟩ | ⟨ht, _⟩ <;>
              rw [ht] at htag2 <;> exact absurd htag2 (by decide)
  · intro hspec
    by_cases hE : props.isEmpty = true
    · exfalso
      have hnil : props = [] := by simpa [List.isEmpty_iff] using hE
      subst hnil
      unfold aliasSpecLookup at hspec
      rw [List.find?_eq_none.mpr (fun x _ => by simp)] at hspec
      cases hspec
    · have h4 : aliasStage (pyLowerStrip query) als props = some m := by
        rw [aliasStage_eq_spec]
        exact hspec
      have hres : resolve query props als theta = Except.ok (some m) := by
        simp [resolve, hE, h1, h2, h3, h4]
      exact ⟨hres, (aliasStage_some h4).2⟩

/-- Witness for the amended C4 at the alias scenario of the spec. -/
theorem resolve_alias_amended_witness :
    resolve "Primary Site" [⟨"1", "mysite", "My Site", "acc", none⟩]
        [("mysite", ["primary site", "main"])] (6 / 10)
      = Except.ok (some ⟨⟨"1", "mysite", "My Site", "acc", none⟩, 1, "alias"⟩) :=
  ((resolve_alias_amended "Primary Site"
      [⟨"1", "mysite", "My Site", "acc", none⟩]
      [("mysite", ["primary site", "main"])] (6 / 10)
      ⟨⟨"1", "mysite", "My Site", "acc", none⟩, 1, "alias"⟩
      (by decide) (by decide) (by decide)).mpr (by decide)).1

/-! ## Exact id stage first -/

theorem find_id_first {props : List GAProperty} {R : GAProperty}
    (hmem : R ∈ props) (hinj : ∀ p ∈ props, p.id = R.id → p = R) :
    props.find? (fun p => p.id == R.id) = some R := by
  induction props with
  | nil => cases hmem
  | cons p rest ih =>
    by_cases hid : p.id = R.id
    · have hpR : p = R := hinj p (List.mem_cons_self p rest) hid
      rw [List.find?_cons_of_pos _ (by simp [hid]), hpR]
    · rw [List.find?_cons_of_neg _ (by simp [hid])]
      have hmem2 : R ∈ rest := by
        rcases List.mem_cons.mp hmem with h | h
        · exact absurd (by rw [h]) hid
        · exact h
      exact ih hmem2 (fun q hq => hinj q (List.mem_cons_of_mem p hq))

/-- C6 (confirmed): over a snapshot with pairwise distinct ids, resolving
the raw id of any record returns that record at confidence 1 with stage
exact_id; the raw id comparison runs over the snapshot in order before any
other stage can answer, whatever the alias table and threshold are. -/
theorem resolve_exact_id (theta : ℚ) (als : List (String × List String))
    (props : List GAProperty) (R : GAProperty)
    (hmem : R ∈ props) (hnodup : (props.map (fun p => p.id)).Nodup) :
    resolve R.id props als theta = Except.ok (some ⟨R, 1, "exact_id"⟩) := by
  have hE : props.isEmpty = false := by
    cases props
    · cases hmem
    · rfl
  have hinj : ∀ p ∈ props, p.id = R.id → p = R := fun p hp hid =>
    List.inj_on_of_nodup_map hnodup hp hmem hid
  have h1 : exactIdStage R.id props = some ⟨R, 1, "exact_id"⟩ := by
    unfold exactIdStage
    rw [find_id_first hmem hinj]
    rfl
  simp [resolve, hE, h1]

/-- Witness for C6 on a two-record snapshot. -/
theorem resolve_exact_id_witness :
    resolve "222" [⟨"111", "acmeblog", "Acme Blog", "a", none⟩,
        ⟨"222", "acmeshop", "Acme Shop", "a", none⟩] [] (6 / 10)
      = Except.ok (some ⟨⟨"222", "acmeshop", "Acme Shop", "a", none⟩,
          1, "exact_id"⟩) :=
  resolve_exact_id (6 / 10) []
    [⟨"111", "acmeblog", "Acme Blog", "a", none⟩,
      ⟨"222", "acmeshop", "Acme Shop", "a", none⟩]
    ⟨"222", "acmeshop", "Acme Shop", "a", none⟩ (by decide) (by decide)

/-! ## Search lemmas -/

theorem searchBestScore_le_one (qClean : List Char) (p : GAProperty) :
    searchBestScore qClean p ≤ 1 := by
  simp only [searchBestScore]
  split
  · rename_i hcont
    apply max_le (max_le (ratioOf_le_one _ _) (ratioOf_le_one _ _))
    have hlq : qClean.length ≤ max p.name.data.length
        (max (pyClean p.display_name).length 1) := by
      rw [Bool.or_eq_true] at hcont
      rcases hcont with hc | hc
      · have := containsSub_length_le hc
        omega
      · have := containsSub_length_le hc
        omega
    have hD1 : (1 : ℚ) ≤ ((max p.name.data.length
        (max (pyClean p.display_name).length 1) : ℕ) : ℚ) := by
      have : 1 ≤ max p.name.data.length (max (pyClean p.display_name).length 1) := by
        omega
      exact_mod_cast this
    have hDpos : (0 : ℚ) < ((max p.name.data.length
        (max (pyClean p.display_name).length 1) : ℕ) : ℚ) := by linarith
    have hps : (qClean.length : ℚ) /
        ((max p.name.data.length (max (pyClean p.display_name).length 1) : ℕ) : ℚ) ≤ 1 := by
      rw [div_le_one hDpos]
      exact_mod_cast hlq
    have hmul := mul_le_mul_of_nonneg_right hps (show (0 : ℚ) ≤ 3 / 10 by norm_num)
    linarith
  · exact max_le (ratioOf_le_one _ _) (ratioOf_le_one _ _)

theorem orderedInsert_filter (c : ℚ) (x : PropertyMatch) :
    ∀ l : List PropertyMatch,
    (List.orderedInsert confGE x l).filter (fun m => decide (m.confidence = c))
      = if x.confidence = c then
          x :: l.filter (fun m => decide (m.confidence = c))
        else l.filter (fun m => decide (m.confidence = c)) := by
  intro l
  induction l with
  | nil =>
    by_cases hx : x.confidence = c
    · simp [List.orderedInsert, hx]
    · simp [List.orderedInsert, hx]
  | cons y ys ih =>
    rw [List.orderedInsert]
    by_cases hr : confGE x y
    · rw [if_pos hr]
      by_cases hx : x.confidence = c
      · simp [List.filter_cons, hx]
      · simp [List.filter_cons, hx]
    · rw [if_neg hr]
      have hlt : x.confidence < y.confidence := not_le.mp hr
      by_cases hx : x.confidence = c
      · have hy : ¬ y.confidence = c := by
          rw [← hx]
          exact ne_of_gt hlt
        simp [List.filter_cons, hx, hy, ih]
      · by_cases hy : y.confidence = c
        · simp [List.filter_cons, hx, hy, ih]
        · simp [List.filter_cons, hx, hy, ih]

/-- The stable sort used by search preserves, for every confidence value,
the snapshot-order subsequence of matches carrying that confidence. -/
theorem insertionSort_filter (c : ℚ) :
    ∀ l : List PropertyMatch,
    (List.insertionSort confGE l).filter (fun m => decide (m.confidence = c))
      = l.filter (fun m => decide (m.confidence = c)) := by
  intro l
  induction l with
  | nil => rfl
  | cons x xs ih =>
    rw [List.insertionSort, orderedInsert_filter]
    by_cases hx : x.confidence = c
    · rw [if_pos hx, ih]
      simp [List.filter_cons, hx]
    · rw [if_neg hx, ih]
      simp [List.filter_cons, hx]

theorem searchTagEq {b : ℚ} (hle : b ≤ 1) :
    (if b < 1 then "fuzzy" else "exact") = (if b = 1 then "exact" else "fuzzy") := by
  by_cases h1 : b = 1
  · rw [if_pos h1, if_neg (by rw [h1]; exact lt_irrefl 1)]
  · rw [if_pos (lt_of_le_of_ne hle h1), if_neg h1]

theorem searchEntry_eq (query : String) (p : GAProperty) (m : PropertyMatch) :
    searchEntry query p = some m ↔
      (forcedExact query (pyCanon query) p = true ∧ m = ⟨p, 1, "exact"⟩) ∨
      (forcedExact query (pyCanon query) p = false ∧
        3 / 10 < searchBestScore (pyCanon query) p ∧
        m = ⟨p, searchBestScore (pyCanon query) p,
          if searchBestScore (pyCanon query) p = 1 then "exact" else "fuzzy"⟩) := by
  have hle := searchBestScore_le_one (pyCanon query) p
  unfold searchEntry
  by_cases hf : forcedExact query (pyCanon query) p = true
  · rw [if_pos hf]
    constructor
    · intro h
      exact Or.inl ⟨hf, (Option.some.inj h).symm⟩
    · rintro (⟨_, hm⟩ | ⟨hff, _⟩)
      · rw [hm]
      · rw [hf] at hff
        cases hff
  · have hf2 : forcedExact query (pyCanon query) p = false := by simpa using hf
    rw [if_neg hf]
    by_cases hb : searchBestScore (pyCanon query) p > 3 / 10
    · rw [if_pos hb]
      constructor
      · intro h
        refine Or.inr ⟨hf2, hb, ?_⟩
        rw [(Option.some.inj h).symm, searchTagEq hle]
      · rintro (⟨hff, _⟩ | ⟨_, _, hm⟩)
        · rw [hf2] at hff
          cases hff
        · rw [hm, searchTagEq hle]
    · rw [if_neg hb]
      constructor
      · intro h
        cases h
      · rintro (⟨hff, _⟩ | ⟨_, hbb, _⟩)
        · rw [hf2] at hff
          cases hff
        · exact absurd hbb hb

/-- C7 (confirmed): search equals the stable descending-confidence sort of
the per-record match list truncated to maxResults; the output is sorted by
descending confidence, ties keep snapshot order (the filter at every
confidence value is preserved by the sort), at most maxResults entries are
returned, and a record contributes a match exactly when it is forced exact
(raw id or name equal to the raw or cleaned query, confidence 1, stage
exact) or its best score strictly exceeds 0.3, tagged exact at score 1 and
fuzzy below. -/
theorem search_ranking (query : String) (props : List GAProperty) (k : Nat) :
    search query props k
        = (List.insertionSort confGE (searchMatches query props)).take k ∧
    List.Pairwise (fun a b : PropertyMatch => b.confidence ≤ a.confidence)
      (search query props k) ∧
    (∀ c : ℚ, (List.insertionSort confGE (searchMatches query props)).filter
        (fun m => decide (m.confidence = c))
      = (searchMatches query props).filter (fun m => decide (m.confidence = c))) ∧
    (search query props k).length ≤ k ∧
    (∀ m, m ∈ searchMatches query props ↔
      ∃ p, p ∈ props ∧ searchEntry query p = some m) ∧
    (∀ (p : GAProperty) (m : PropertyMatch), searchEntry query p = some m ↔
      (forcedExact query (pyCanon query) p = true ∧ m = ⟨p, 1, "exact"⟩) ∨
      (forcedExact query (pyCanon query) p = false ∧
        3 / 10 < searchBestScore (pyCanon query) p ∧
        m = ⟨p, searchBestScore (pyCanon query) p,
          if searchBestScore (pyCanon query) p = 1 then "exact" else "fuzzy"⟩)) := by
  refine ⟨rfl, ?_, fun c => insertionSort_filter c _, ?_, ?_, ?_⟩
  · have hs := List.sorted_insertionSort confGE (searchMatches query props)
    exact List.Pairwise.sublist (List.take_sublist k _) hs
  · rw [search, List.length_take]
    exact min_le_left _ _
  · intro m
    exact List.mem_filterMap
  · exact searchEntry_eq query

/-! ## Cache lemmas -/

theorem getCached_none {α : Type} (now : ℚ) (k : String) (c : Cache α)
    (h : lookupKey k c = none) : getCached now k c = (none, c) := by
  unfold getCached
  rw [h]

theorem getCached_valid {α : Type} (now : ℚ) (k : String) (c : Cache α)
    (e : CacheEntry α) (h : lookupKey k c = some e) (ht : now < e.expires_at) :
    getCached now k c = (some e.data, c) := by
  unfold getCached
  rw [h]
  show (if now < e.expires_at then (some e.data, c)
    else (none, eraseKey k c)) = (some e.data, c)
  rw [if_pos ht]

theorem getCached_expired {α : Type} (now : ℚ) (k : String) (c : Cache α)
    (e : CacheEntry α) (h : lookupKey k c = some e) (ht : ¬ now < e.expires_at) :
    getCached now k c = (none, eraseKey k c) := by
  unfold getCached
  rw [h]
  show (if now < e.expires_at then (some e.data, c)
    else (none, eraseKey k c)) = (none, eraseKey k c)
  rw [if_neg ht]

theorem lookupKey_setEntry_self {α : Type} (k : String) (e : CacheEntry α) :
    ∀ c : Cache α, lookupKey k (setEntry k e c) = some e := by
  intro c
  induction c with
  | nil => simp [setEntry, lookupKey]
  | cons kv rest ih =>
    obtain ⟨k2, e2⟩ := kv
    by_cases hk : k2 = k
    · simp [setEntry, hk, lookupKey]
    · simp [setEntry, hk, lookupKey, ih]

theorem eraseKey_length {α : Type} (k : String) :
    ∀ {c : Cache α} {e : CacheEntry α}, lookupKey k c = some e →
    (eraseKey k c).length + 1 = c.length := by
  intro c
  induction c with
  | nil => intro e h; cases h
  | cons kv rest ih =>
    intro e h
    obtain ⟨k2, e2⟩ := kv
    by_cases hk : k2 = k
    · simp [eraseKey, hk]
    · simp only [lookupKey, if_neg hk] at h
      simp [eraseKey, hk]
      have := ih h
      unfold Cache at this
      omega

/-- C8 (confirmed): a cache read returns the stored value exactly when an
entry is present and the read time is strictly before its expiry; a
present expired entry is deleted by the read and the total entry count
drops by one; after a set with positive ttl an immediate get yields the
value, and any get at or after expiry yields absence and shrinks the
cache by one entry. -/
theorem cache_get_semantics (α : Type) (c : Cache α) (k : String)
    (t : ℚ) (v : α) :
    ((getCached t k c).1 = some v ↔
      ∃ e, lookupKey k c = some e ∧ t < e.expires_at ∧ e.data = v) ∧
    (∀ e, lookupKey k c = some e → ¬ t < e.expires_at →
      (getCached t k c).1 = none ∧ (getCached t k c).2 = eraseKey k c ∧
      (getCached t k c).2.length + 1 = c.length) ∧
    (∀ ttl : ℚ, 0 < ttl →
      (getCached t k (setCached t k v ttl c)).1 = some v ∧
      ∀ u : ℚ, t + ttl ≤ u →
        (getCached u k (setCached t k v ttl c)).1 = none ∧
        (getCached u k (setCached t k v ttl c)).2.length + 1
          = (setCached t k v ttl c).length) := by
  refine ⟨⟨?_, ?_⟩, ?_, ?_⟩
  · intro h
    cases hL : lookupKey k c with
    | none =>
      rw [getCached_none t k c hL] at h
      cases h
    | some e =>
      by_cases ht : t < e.expires_at
      · rw [getCached_valid t k c e hL ht] at h
        exact ⟨e, rfl, ht, Option.some.inj h⟩
      · rw [getCached_expired t k c e hL ht] at h
        cases h
  · rintro ⟨e, hL, ht, hv⟩
    rw [getCached_valid t k c e hL ht, hv]
  · intro e hL ht
    rw [getCached_expired t k c e hL ht]
    exact ⟨rfl, rfl, eraseKey_length k hL⟩
  · intro ttl httl
    have hset : lookupKey k (setCached t k v ttl c) = some ⟨v, t + ttl⟩ :=
      lookupKey_setEntry_self k ⟨v, t + ttl⟩ c
    constructor
    · rw [getCached_valid t k (setCached t k v ttl c) ⟨v, t + ttl⟩ hset
        (by show t < t + ttl; linarith)]
    · intro u hu
      have hnot : ¬ u < (⟨v, t + ttl⟩ : CacheEntry α).expires_at := by
        show ¬ u < t + ttl
        linarith
      rw [getCached_expired u k (setCached t k v ttl c) ⟨v, t + ttl⟩ hset hnot]
      exact ⟨rfl, eraseKey_length k hset⟩

/-- Witness for C8 on a concrete one-shot set and get with ttl 1. -/
theorem cache_get_semantics_witness :
    (getCached 0 "k" (setCached 0 "k" (42 : Nat) 1 [])).1 = some 42 ∧
    (getCached 1 "k" (setCached 0 "k" (42 : Nat) 1 [])).1 = none ∧
    (getCached 1 "k" (setCached 0 "k" (42 : Nat) 1 [])).2.length + 1
      = (setCached 0 "k" (42 : Nat) 1 []).length := by
  have h := (cache_get_semantics Nat [] "k" 0 42).2.2 1 (by norm_num)
  refine ⟨h.1, ?_, ?_⟩
  · exact (h.2 1 (by norm_num)).1
  · exact (h.2 1 (by norm_num)).2

/-! ## Facade state lemmas -/

theorem ensureLoaded_some {s : ResolverState} {l : List GAProperty}
    (now pttl : ℚ) (fetched : List GAProperty)
    (hl : s.properties = some l) :
    ensureLoaded now fetched pttl s = (s, false) := by
  unfold ensureLoaded
  rw [hl]

theorem ensureLoaded_cached {s : ResolverState}
    {e : CacheEntry (List GAProperty)} (now pttl : ℚ)
    (fetched : List GAProperty)
    (hn : s.properties = none)
    (hL : lookupKey "properties" s.cache = some e)
    (ht : now < e.expires_at) (hne : e.data ≠ []) :
    ensureLoaded now fetched pttl s = (⟨some e.data, s.cache⟩, false) := by
  have hemp : e.data.isEmpty = false := by
    cases hd : e.data with
    | nil => exact absurd hd hne
    | cons a t => rfl
  have hdisc : discoverProperties now fetched pttl s.cache
      = (e.data, s.cache, false) := by
    unfold discoverProperties
    rw [getCached_valid now "properties" s.cache e hL ht]
    show (if e.data.isEmpty then
        (fetched, setCached now "properties" fetched pttl s.cache, true)
      else (e.data, s.cache, false)) = (e.data, s.cache, false)
    rw [hemp]
    rfl
  unfold ensureLoaded
  rw [hn]
  show ((⟨some (discoverProperties now fetched pttl s.cache).1,
      (discoverProperties now fetched pttl s.cache).2.1⟩ : ResolverState),
    (discoverProperties now fetched pttl s.cache).2.2)
      = ((⟨some e.data, s.cache⟩ : ResolverState), false)
  rw [hdisc]

/-- C3 (refuted as stated): the property list is fetched once (remote
returns the empty list) and cached under the fixed key with ttl 3600; after
a clear of the in-memory snapshot, a list call at time 1, well inside the
TTL window of the still-present cache entry, consults the remote directory
again because the cached empty list is falsy. -/
theorem property_list_cache_empty_counterexample :
    lookupKey "properties"
        (clearCacheR (listAllOp 0 [] 3600 ⟨none, []⟩).2.1).cache
      = some ⟨[], 3600⟩ ∧
    ((1 : ℚ) < 3600) ∧
    (listAllOp 1 [] 3600
      (clearCacheR (listAllOp 0 [] 3600 ⟨none, []⟩).2.1)).2.2 = true := by
  decide

/-- C3 (amended): a resolve, search or listAll call issues no remote
directory call whenever the in-memory snapshot is loaded, and also
whenever the snapshot is unset but the cache holds an unexpired non-empty
entry under the fixed key, in which case the served list is the cached
one; with an unexpired empty cached list and an unset snapshot the
remote directory is consulted again. -/
theorem property_list_cache_hit (s : ResolverState) (now pttl : ℚ)
    (fetched : List GAProperty) (e : CacheEntry (List GAProperty))
    (query : String) (als : List (String × List String)) (theta : ℚ)
    (k : Nat) :
    (∀ l, s.properties = some l →
      (listAllOp now fetched pttl s).2.2 = false ∧
      (resolveOp query als theta now fetched pttl s).2.2 = false ∧
      (searchOp query k now fetched pttl s).2.2 = false) ∧
    (s.properties = none → lookupKey "properties" s.cache = some e →
      now < e.expires_at → e.data ≠ [] →
      (listAllOp now fetched pttl s).2.2 = false ∧
      (listAllOp now fetched pttl s).1 = e.data ∧
      (resolveOp query als theta now fetched pttl s).2.2 = false ∧
      (searchOp query k now fetched pttl s).2.2 = false) := by
  constructor
  · intro l hl
    have h := ensureLoaded_some now pttl fetched hl
    exact ⟨by simp [listAllOp, h], by simp [resolveOp, h],
      by simp [searchOp, h]⟩
  · intro hn hL ht hne
    have h := ensureLoaded_cached now pttl fetched hn hL ht hne
    exact ⟨by simp [listAllOp, h], by simp [listAllOp, h],
      by simp [resolveOp, h], by simp [searchOp, h]⟩

/-- Witness for the amended C3 with a valid non-empty cached list. -/
theorem property_list_cache_hit_witness :
    (listAllOp 5 []
      3600 ⟨none, [("properties", ⟨[⟨"1", "n", "D", "a", none⟩], 10⟩)]⟩).2.2
      = false ∧
    (listAllOp 5 []
      3600 ⟨none, [("properties", ⟨[⟨"1", "n", "D", "a", none⟩], 10⟩)]⟩).1
      = [⟨"1", "n", "D", "a", none⟩] := by
  have h := (property_list_cache_hit
      ⟨none, [("properties", ⟨[⟨"1", "n", "D", "a", none⟩], 10⟩)]⟩ 5 3600 []
      ⟨[⟨"1", "n", "D", "a", none⟩], 10⟩ "q" [] (6 / 10) 5).2
      rfl rfl (by norm_num) (by decide)
  exact ⟨h.1, h.2.1⟩

/-- C9 (refuted as stated): from a state whose cache holds a valid entry
with the empty list (reached by fetching an empty directory), clear_cache
leaves the entry in place, yet the next resolution performs a fresh remote
fetch, because the cached empty list is falsy at the cache read. -/
theorem clear_cache_empty_refetch_counterexample :
    (clearCacheR (⟨some [], [("properties", ⟨[], 3600⟩)]⟩ : ResolverState)).cache
      = [("properties", ⟨[], 3600⟩)] ∧
    ((1 : ℚ) < 3600) ∧
    (listAllOp 1 [] 3600
      (clearCacheR ⟨some [], [("properties", ⟨[], 3600⟩)]⟩)).2.2 = true := by
  decide

/-- C9 (amended): clear_cache resets only the in-memory snapshot holder
and leaves every entry of the backing time-bounded cache unchanged; the
next resolution after clear_cache is served from the backing cache entry
without a remote call provided the entry is still valid and non-empty. -/
theorem clear_cache_frame (s : ResolverState) :
    (clearCacheR s).cache = s.cache ∧
    (clearCacheR s).properties = none ∧
    (∀ (now pttl : ℚ) (fetched : List GAProperty)
      (e : CacheEntry (List GAProperty)),
      lookupKey "properties" s.cache = some e → now < e.expires_at →
      e.data ≠ [] →
      (listAllOp now fetched pttl (clearCacheR s)).2.2 = false ∧
      (listAllOp now fetched pttl (clearCacheR s)).1 = e.data) := by
  refine ⟨rfl, rfl, ?_⟩
  intro now pttl fetched e hL ht hne
  have h := ensureLoaded_cached (s := clearCacheR s) now pttl fetched rfl hL ht hne
  exact ⟨by simp [listAllOp, h], by simp [listAllOp, h]⟩

/-- Witness for the amended C9 with a valid non-empty cached entry. -/
theorem clear_cache_frame_witness :
    (listAllOp 5 [] 3600 (clearCacheR
      ⟨some [], [("properties", ⟨[⟨"1", "n", "D", "a", none⟩], 10⟩)]⟩)).2.2
      = false ∧
    (listAllOp 5 [] 3600 (clearCacheR
      ⟨some [], [("properties", ⟨[⟨"1", "n", "D", "a", none⟩], 10⟩)]⟩)).1
      = [⟨"1", "n", "D", "a", none⟩] :=
  (clear_cache_frame
    ⟨some [], [("properties", ⟨[⟨"1", "n", "D", "a", none⟩], 10⟩)]⟩).2.2
    5 3600 [] ⟨[⟨"1", "n", "D", "a", none⟩], 10⟩ rfl (by norm_num) (by decide)

/-- C10 (confirmed): the configuration range check accepts threshold 0,
yet an explicit threshold 0.0 passed to the resolver constructor falls
back to the configured value through the Python or, while any non-zero
explicit threshold takes effect; an explicitly passed empty alias mapping
likewise falls back to the configured aliases, and the configured default
threshold is 0.6. -/
theorem resolver_init_falsy_fallback (cfg : Config) (t : ℚ) (ht : t ≠ 0) :
    thresholdAccepted 0 = true ∧
    (resolverInit (some 0) none cfg).1 = cfg.fuzzy_threshold ∧
    (resolverInit (some t) none cfg).1 = t ∧
    (resolverInit none none cfg).1 = cfg.fuzzy_threshold ∧
    (resolverInit (some t) (some []) cfg).2 = cfg.custom_aliases ∧
    ({} : Config).fuzzy_threshold = 6 / 10 := by
  refine ⟨by decide, ?_, ?_, rfl, rfl, rfl⟩
  · simp [resolverInit, pyOrThreshold]
  · simp [resolverInit, pyOrThreshold, ht]

/-- Witness for C10 with the explicit non-zero threshold one half. -/
theorem resolver_init_falsy_fallback_witness :
    (resolverInit (some (1 / 2)) none {}).1 = 1 / 2 :=
  (resolver_init_falsy_fallback {} (1 / 2) (by norm_num)).2.2.1
